import Mathlib

/-!
Verification of the RAJA policy-directed loop-nest execution core against its
specification: the CUDA `Tile` statement executor (exec and
calculateDimensions), the AVX2 int64 `Register` abstraction, `ReduceSum`
finalization, and `RAJA::detail::firstIndex`.

Segments ("ordered, sliceable index ranges") are modelled as `List Int`:
`slice(offset, length)` is `(seg.drop offset).take length` (take/drop clamp at
the end of the sequence, matching the clamping `slice` of the segment
collaborator), `length` is `List.length`, and `*begin()` of a non-empty
segment is `List.headI`.
-/

namespace RAJA

/-- The per-dimension execution context seen by the Tile executor: the
`ArgumentId` slot of the segment tuple and the matching index-tuple entry
(`Data &data` in `CudaStatementExecutor<Tile<...>>::exec`). -/
structure Ctx where
  seg : List Int
  idx : Int
deriving DecidableEq, Repr

/-- The loop body of `CudaStatementExecutor<Tile<...>>::exec`
(Tile.hpp lines 53-64), embedded with an explicit fuel argument as the
recursion measure.  `orig` is `orig_segment` (saved before the loop), `C` is
`TPol::chunk_size`, `i` is the loop counter, and `child` is
`cuda_execute_statement_list` for the enclosed statements, which may mutate
the context arbitrarily.  Each iteration assigns
`segment = orig_segment.slice(i, chunk_size)` — that is
`(orig.drop i).take C` — sets the index-tuple entry to `*segment.begin()`,
and runs the enclosed statements on the modified context.  The result is the
context after the loop together with the trace of (segment, index) pairs the
enclosed statements were executed against.  For `0 < C` a fuel of
`orig.length` never cuts the loop short (each step consumes one unit of fuel
and advances `i` by `C ≥ 1`); for `C = 0` the source loop would not
terminate, and every theorem below assumes `0 < C`. -/
def tileExecGo (child : Ctx → Ctx) (orig : List Int) (C : Nat) :
    Nat → Nat → Ctx → Ctx × List (List Int × Int)
  | _, 0, ctx => (ctx, [])
  | i, fuel+1, ctx =>
    if i < orig.length then
      let tile := (orig.drop i).take C
      let ctx1 : Ctx := { ctx with seg := tile, idx := tile.headI }
      let rest := tileExecGo child orig C (i + C) fuel (child ctx1)
      (rest.1, (tile, tile.headI) :: rest.2)
    else
      (ctx, [])

/-- Embeds `CudaStatementExecutor<Tile<...>>::exec` (Tile.hpp lines 38-69): save
`orig_segment`, compute the trip count, run the tiling loop from `i = 0`, and
finally restore the segment slot to its pre-tile value. -/
def tileExec (child : Ctx → Ctx) (C : Nat) (ctx : Ctx) :
    Ctx × List (List Int × Int) :=
  let orig := ctx.seg
  let r := tileExecGo child orig C 0 orig.length ctx
  ({ r.1 with seg := orig }, r.2)

/-- The tiles (sliced segments) that `tileExec` hands to the enclosed
statements, in order. -/
def tileSegments (child : Ctx → Ctx) (C : Nat) (ctx : Ctx) : List (List Int) :=
  (tileExec child C ctx).2.map Prod.fst

/-- Concatenating the tiles produced from loop counter `i` onward recovers
`orig.drop i`, provided the fuel covers the remaining iterations. -/
lemma tileExecGo_flatten (child : Ctx → Ctx) (orig : List Int) (C : Nat)
    (hC : 0 < C) :
    ∀ (fuel i : Nat) (ctx : Ctx), orig.length ≤ i + fuel * C →
      (((tileExecGo child orig C i fuel ctx).2).map Prod.fst).flatten =
        orig.drop i := by
  intro fuel
  induction fuel with
  | zero =>
    intro i ctx h
    simp only [tileExecGo, List.map_nil, List.flatten_nil]
    exact (List.drop_eq_nil_of_le (by simpa using h)).symm
  | succ n ih =>
    intro i ctx h
    rw [Nat.succ_mul] at h
    by_cases hi : i < orig.length
    · simp only [tileExecGo, if_pos hi, List.map_cons, List.flatten_cons]
      rw [ih (i + C) _ (by omega)]
      rw [show orig.drop (i + C) = (orig.drop i).drop C from
        (List.drop_drop C i orig).symm]
      exact List.take_append_drop C (orig.drop i)
    · simp only [tileExecGo, if_neg hi, List.map_nil, List.flatten_nil]
      exact (List.drop_eq_nil_of_le (by omega)).symm

/-- Every tile produced from loop counter `i` onward is non-empty and no
longer than the chunk size. -/
lemma tileExecGo_tile_length (child : Ctx → Ctx) (orig : List Int) (C : Nat)
    (hC : 0 < C) :
    ∀ (fuel i : Nat) (ctx : Ctx),
      ∀ t ∈ ((tileExecGo child orig C i fuel ctx).2).map Prod.fst,
        0 < t.length ∧ t.length ≤ C := by
  intro fuel
  induction fuel with
  | zero => intro i ctx t ht; simp [tileExecGo] at ht
  | succ n ih =>
    intro i ctx t ht
    by_cases hi : i < orig.length
    · simp only [tileExecGo, if_pos hi, List.map_cons, List.mem_cons] at ht
      rcases ht with rfl | ht
      · constructor
        · simp only [List.length_take, List.length_drop]
          omega
        · simpa using List.length_take_le C (orig.drop i)
      · exact ih (i + C) (child _) t ht
    · simp [tileExecGo, if_neg hi] at ht

/-- C1 (amended): with chunk size `C > 0`, the tiles visited by
`Tile::exec` concatenate back to exactly the original segment (the partition
is exhaustive and non-overlapping: every original index lies in exactly one
tile, with multiplicity and order preserved); every tile is non-empty and of
length at most `C` (so the final tile may be shorter than `C`); and when the
segment is non-empty and `C ≥ length`, there is exactly one tile, the whole
segment.  (For the empty segment the loop body never runs, so there are zero
tiles — not one.) -/
theorem tile_exec_partition (child : Ctx → Ctx) (C : Nat) (ctx : Ctx)
    (hC : 0 < C) :
    (tileSegments child C ctx).flatten = ctx.seg ∧
    (∀ t ∈ tileSegments child C ctx, 0 < t.length ∧ t.length ≤ C) ∧
    (ctx.seg.length ≤ C → 1 ≤ ctx.seg.length →
      tileSegments child C ctx = [ctx.seg]) := by
  refine ⟨?_, ?_, ?_⟩
  · have := tileExecGo_flatten child ctx.seg C hC ctx.seg.length 0 ctx
      (by simpa using Nat.le_mul_of_pos_right ctx.seg.length hC)
    simpa [tileSegments, tileExec] using this
  · intro t ht
    exact tileExecGo_tile_length child ctx.seg C hC ctx.seg.length 0 ctx t
      (by simpa [tileSegments, tileExec] using ht)
  · intro hle hpos
    have htake : List.take C ctx.seg = ctx.seg := List.take_of_length_le hle
    have hstop : ∀ (fuel : Nat) (c : Ctx),
        (tileExecGo child ctx.seg C C fuel c).2 = [] := by
      intro fuel c
      cases fuel with
      | zero => rfl
      | succ m =>
        simp only [tileExecGo]
        rw [if_neg (by omega : ¬ C < ctx.seg.length)]
    obtain ⟨n, hn⟩ : ∃ n, ctx.seg.length = n + 1 :=
      ⟨ctx.seg.length - 1, by omega⟩
    simp only [tileSegments, tileExec, hn]
    simp only [tileExecGo]
    rw [if_pos (show 0 < ctx.seg.length by omega)]
    simp [hstop, htake]

/-- C1, counterexample to the claim as stated: for the empty segment
(`L = 0`) and chunk size `C = 1 ≥ L`, `Tile::exec` produces zero tiles, not
"exactly one tile covering the whole segment". -/
theorem tile_exec_empty_segment_no_tile :
    tileSegments id 1 ⟨[], 0⟩ ≠ [([] : List Int)] := by
  decide

/-- C1 witness: the partition theorem applied at segment `[3,1,4,1,5]` with
chunk size 2. -/
theorem tile_exec_partition_witness :
    (tileSegments id 2 ⟨[3, 1, 4, 1, 5], 0⟩).flatten = [3, 1, 4, 1, 5] :=
  (tile_exec_partition id 2 ⟨[3, 1, 4, 1, 5], 0⟩ (by decide)).1

/-- The tiling loop exactly as §4.2 of the spec words it: iterate `i` from 0
to the segment length in steps of `chunkSize`; for each step take
`slice(i, min(chunkSize, length - i))` and record its first index as the
value written into the index tuple.  This definition follows the spec's
words, to be compared with the executable embedding of the source. -/
def specTileTraceGo (seg : List Int) (C : Nat) :
    Nat → Nat → List (List Int × Int)
  | _, 0 => []
  | i, fuel+1 =>
    if i < seg.length then
      let s := (seg.drop i).take (min C (seg.length - i))
      (s, s.headI) :: specTileTraceGo seg C (i + C) fuel
    else
      []

/-- Spec-side trace of `Tile(dim, chunkSize).exec`, §4.2. -/
def specTileTrace (seg : List Int) (C : Nat) : List (List Int × Int) :=
  specTileTraceGo seg C 0 seg.length

/-- Slicing with the raw chunk size equals slicing with
`min(chunkSize, length - i)`: `take` clamps at the end of the sequence. -/
lemma take_chunk_eq_take_min (seg : List Int) (C i : Nat) :
    (seg.drop i).take C = (seg.drop i).take (min C (seg.length - i)) := by
  rw [List.take_eq_take]
  simp [List.length_drop]

/-- C2: the contexts that `Tile::exec` executes its enclosed statements
against are exactly those the spec describes: at each step `i` (a multiple of
the chunk size below the segment length), the `ArgumentId` segment slot holds
`slice(i, min(chunkSize, length - i))` of the original segment and the
index-tuple entry for that dimension holds the first index of that slice —
for any behaviour of the enclosed statements. -/
theorem tile_exec_trace_spec (child : Ctx → Ctx) (C : Nat) (ctx : Ctx)
    (hC : 0 < C) :
    (tileExec child C ctx).2 = specTileTrace ctx.seg C := by
  suffices h : ∀ (fuel i : Nat) (c : Ctx),
      (tileExecGo child ctx.seg C i fuel c).2 =
        specTileTraceGo ctx.seg C i fuel by
    simpa [tileExec, specTileTrace] using
      h ctx.seg.length 0 ctx
  intro fuel
  induction fuel with
  | zero => intro i c; rfl
  | succ n ih =>
    intro i c
    by_cases hi : i < ctx.seg.length
    · simp only [tileExecGo, specTileTraceGo, if_pos hi]
      rw [← take_chunk_eq_take_min]
      simp [ih]
    · simp [tileExecGo, specTileTraceGo, if_neg hi]

/-- C2 witness: the trace equivalence applied at segment `[10, 20, 30, 40, 50]`
with chunk size 3. -/
theorem tile_exec_trace_spec_witness :
    (tileExec id 3 ⟨[10, 20, 30, 40, 50], 7⟩).2 =
      specTileTrace [10, 20, 30, 40, 50] 3 :=
  tile_exec_trace_spec id 3 ⟨[10, 20, 30, 40, 50], 7⟩ (by decide)

/-- C6: on every exit path from `Tile::exec` the tiled segment-tuple slot is
restored to its exact pre-tile value — for arbitrary behaviour of the
enclosed statements, which may overwrite the slot at will.  (In the source
the enclosed statements are `__device__` calls returning `void`: they have no
failure channel, so the single exit path is the normal one, on which line 68
`segment = orig_segment` runs.) -/
theorem tile_exec_restores_segment (child : Ctx → Ctx) (C : Nat) (ctx : Ctx)
    (hC : 0 < C) :
    (tileExec child C ctx).1.seg = ctx.seg := by
  simp [tileExec]

/-- C6 witness: restoration at a concrete segment with a child that clobbers
the segment slot and the index. -/
theorem tile_exec_restores_segment_witness :
    (tileExec (fun c => ⟨[99], c.idx + 1⟩) 2 ⟨[1, 2, 3], 0⟩).1.seg =
      [1, 2, 3] :=
  tile_exec_restores_segment (fun c => ⟨[99], c.idx + 1⟩) 2 ⟨[1, 2, 3], 0⟩
    (by decide)

/-- Two-level device launch geometry: outer execution groups (blocks) and
inner lanes (threads). -/
structure LaunchDim where
  blocks : Nat
  threads : Nat
deriving DecidableEq, Repr

/-- Embeds `CudaStatementExecutor<Tile<...>>::calculateDimensions` (Tile.hpp lines
76-100), embedded with the caller's context made explicit.  `child` is
`cuda_calcdims_statement_list` for the enclosed statements; it receives the
privatized context (which it may mutate — modelled by the `Ctx` it returns,
which is discarded, as `private_data` is) and the maximum physical
dimensions.  The source takes `Data const &data`: the second component of the
result is the caller's context after the call, which the source never
writes — only the value copy `private_data` is sliced. -/
def tileCalcDims (child : Ctx → LaunchDim → LaunchDim × Ctx) (C : Nat)
    (ctx : Ctx) (maxPhysical : LaunchDim) : LaunchDim × Ctx :=
  let len := ctx.seg.length
  let privateData := ctx
  let privateData :=
    if C < len then { privateData with seg := ctx.seg.take C } else privateData
  ((child privateData maxPhysical).1, ctx)

/-- The privatized context handed to the enclosed statements always carries
`seg.take C` — the representative chunk of extent `min(chunkSize, length)`:
when `C < length` the source slices to `slice(0, C) = take C`, and otherwise
the segment is left whole, which equals `take C` since `take` clamps. -/
lemma tileCalcDims_eq_child_on_chunk
    (child : Ctx → LaunchDim → LaunchDim × Ctx) (C : Nat) (ctx : Ctx)
    (maxPhysical : LaunchDim) :
    (tileCalcDims child C ctx maxPhysical).1 =
      (child ⟨ctx.seg.take C, ctx.idx⟩ maxPhysical).1 := by
  by_cases h : C < ctx.seg.length
  · simp [tileCalcDims, h]
  · have htake : ctx.seg.take C = ctx.seg := List.take_of_length_le (by omega)
    simp [tileCalcDims, h, htake]

/-- Modelled from the spec: the dimension calculator of the enclosed
statement list is not under `src/` (only `Tile`'s executor is).  Per §4.3 and
§4.2, an innermost thread-`For` node requires one lane per index of its
segment, and the result is clipped (saturated) against the backend's maximum
physical dimensions, never rejected. -/
def forChildCalcDims (ctx : Ctx) (maxPhysical : LaunchDim) :
    LaunchDim × Ctx :=
  (⟨1, min ctx.seg.length maxPhysical.threads⟩, ctx)

/-- C4: the launch-dimension requirement computed at a Tile node depends only
on the representative chunk — `seg.take C`, of extent `min(chunkSize,
length)` — and the rest of the context, not on the tile's outer trip count:
two Tile configurations whose representative chunks and index entries agree
produce identical dimensions under any child calculator, regardless of how
many tiles each loop would run.  Consequently, for a fixed segment and the
thread-`For` child calculator, increasing the chunk size never decreases the
required lane count. -/
theorem tile_calcdims_chunk_extent_only
    (child : Ctx → LaunchDim → LaunchDim × Ctx) (C C' : Nat)
    (ctx ctx' : Ctx) (maxPhysical : LaunchDim)
    (hchunk : ctx.seg.take C = ctx'.seg.take C') (hidx : ctx.idx = ctx'.idx) :
    (tileCalcDims child C ctx maxPhysical).1 =
      (tileCalcDims child C' ctx' maxPhysical).1 ∧
    (C ≤ C' →
      (tileCalcDims forChildCalcDims C ctx maxPhysical).1.threads ≤
        (tileCalcDims forChildCalcDims C' ctx maxPhysical).1.threads) := by
  constructor
  · rw [tileCalcDims_eq_child_on_chunk, tileCalcDims_eq_child_on_chunk,
      hchunk, hidx]
  · intro hCC
    rw [tileCalcDims_eq_child_on_chunk, tileCalcDims_eq_child_on_chunk]
    simp only [forChildCalcDims, List.length_take]
    omega

/-- C4 witness: the theorem applied to two contexts with the same
representative chunk `[1, 2]` but different outer trip counts (segment
lengths 5 and 2), and to chunk sizes 2 ≤ 3. -/
theorem tile_calcdims_chunk_extent_only_witness :
    (tileCalcDims forChildCalcDims 2 ⟨[1, 2, 3, 4, 5], 0⟩ ⟨4, 8⟩).1 =
      (tileCalcDims forChildCalcDims 3 ⟨[1, 2], 0⟩ ⟨4, 8⟩).1 ∧
    (2 ≤ 3 →
      (tileCalcDims forChildCalcDims 2 ⟨[1, 2, 3, 4, 5], 0⟩ ⟨4, 8⟩).1.threads ≤
        (tileCalcDims forChildCalcDims 3 ⟨[1, 2, 3, 4, 5], 0⟩ ⟨4, 8⟩).1.threads) :=
  tile_calcdims_chunk_extent_only forChildCalcDims 2 3 ⟨[1, 2, 3, 4, 5], 0⟩
    ⟨[1, 2], 0⟩ ⟨4, 8⟩ (by decide) (by decide)

/-- C5: `Tile::calculateDimensions` is pure and side-effect-free relative to
the caller's context: it slices only the privatized value copy, and the
caller's segment slot and index entry are unchanged after the call — for any
child calculator, chunk size, context, and physical maximum.  (Determinism —
the same call on the same inputs yields the same result — is inherent: the
embedding is a function of exactly these inputs.) -/
theorem tile_calcdims_pure (child : Ctx → LaunchDim → LaunchDim × Ctx)
    (C : Nat) (ctx : Ctx) (maxPhysical : LaunchDim) :
    (tileCalcDims child C ctx maxPhysical).2 = ctx := rfl

/-- Two's-complement wrap-around of 64-bit `long` arithmetic: the
representative of `x` in `[-2^63, 2^63)`. -/
def wrap64 (x : Int) : Int := (x + 2 ^ 63) % 2 ^ 64 - 2 ^ 63

/-- Embeds `Register<avx2_register, long, N>` (avx2_int64.hpp): the underlying
`__m256i` value `m_value`, i.e. four 64-bit lanes.  The lane count `N`
(`1 ≤ N ≤ 4` by the static_asserts) parameterizes the operations that
consult it; the hardware register always has four lanes. -/
structure Register where
  x0 : Int
  x1 : Int
  x2 : Int
  x3 : Int
deriving DecidableEq, Repr

/-- Lane `j` of the hardware register (`_mm256_extract_epi64` at a constant
index), used to state per-lane properties. -/
def Register.lane (v : Register) (j : Nat) : Int :=
  match j with
  | 0 => v.x0
  | 1 => v.x1
  | 2 => v.x2
  | _ => v.x3

/-- Embeds `Register::get` (avx2_int64.hpp lines 201-214): a `switch` over the
index with cases 0-3; any other index falls through to `return 0`. -/
def Register.get (v : Register) (i : Int) : Int :=
  if i = 0 then v.x0
  else if i = 1 then v.x1
  else if i = 2 then v.x2
  else if i = 3 then v.x3
  else 0

/-- Embeds `Register::set` (avx2_int64.hpp lines 222-235): a `switch` over the
index with cases 0-3 inserting into the matching lane; any other index
matches no case and leaves `m_value` untouched. -/
def Register.set (v : Register) (i : Int) (value : Int) : Register :=
  if i = 0 then { v with x0 := value }
  else if i = 1 then { v with x1 := value }
  else if i = 2 then { v with x2 := value }
  else if i = 3 then { v with x3 := value }
  else v

/-- Embeds `Register::broadcast` (avx2_int64.hpp lines 237-242), also the
scalar constructor: `_mm256_set1_epi64x` writes the value to all four
hardware lanes, regardless of `N`. -/
def Register.broadcast (c : Int) : Register := ⟨c, c, c, c⟩

/-- Embeds `Register::add`: `_mm256_add_epi64`, lane-wise 64-bit addition on all
four hardware lanes. -/
def Register.add (a b : Register) : Register :=
  ⟨wrap64 (a.x0 + b.x0), wrap64 (a.x1 + b.x1),
   wrap64 (a.x2 + b.x2), wrap64 (a.x3 + b.x3)⟩

/-- Embeds `Register::subtract`: `_mm256_sub_epi64`, lane-wise 64-bit subtraction
on all four hardware lanes. -/
def Register.subtract (a b : Register) : Register :=
  ⟨wrap64 (a.x0 - b.x0), wrap64 (a.x1 - b.x1),
   wrap64 (a.x2 - b.x2), wrap64 (a.x3 - b.x3)⟩

/-- Embeds `Register::multiply` (avx2_int64.hpp lines 264-274): manual per-lane
`long` multiplication assembled with `_mm256_set_epi64x`; lane `j` holds
`get(j) * b.get(j)` when `N ≥ j + 1` and `0` otherwise. -/
def Register.multiply (N : Nat) (a b : Register) : Register :=
  ⟨if 1 ≤ N then wrap64 (a.get 0 * b.get 0) else 0,
   if 2 ≤ N then wrap64 (a.get 1 * b.get 1) else 0,
   if 3 ≤ N then wrap64 (a.get 2 * b.get 2) else 0,
   if 4 ≤ N then wrap64 (a.get 3 * b.get 3) else 0⟩

/-- Embeds `Register::divide` (avx2_int64.hpp lines 276-286): manual per-lane
`long` division (C truncation toward zero, `Int.tdiv`); lane `j` holds
`get(j) / b.get(j)` when `N ≥ j + 1` and `0` otherwise. -/
def Register.divide (N : Nat) (a b : Register) : Register :=
  ⟨if 1 ≤ N then wrap64 (Int.tdiv (a.get 0) (b.get 0)) else 0,
   if 2 ≤ N then wrap64 (Int.tdiv (a.get 1) (b.get 1)) else 0,
   if 3 ≤ N then wrap64 (Int.tdiv (a.get 2) (b.get 2)) else 0,
   if 4 ≤ N then wrap64 (Int.tdiv (a.get 3) (b.get 3)) else 0⟩

/-- Embeds `Register::sum` (avx2_int64.hpp lines 294-303): swap pairs with
`permute<0x5>` and add (`red1 = [x0+x1, x1+x0, x2+x3, x3+x2]`), then return
`extract(red1, 0) + extract(red1, 2)` — i.e. the sum of all four hardware
lanes, with no masking by `N`. -/
def Register.sum (v : Register) : Int :=
  wrap64 (wrap64 (v.x0 + v.x1) + wrap64 (v.x2 + v.x3))

/-- Per-lane scalar `long` addition, the reference the spec compares
vector lanes against. -/
def scalarAdd (x y : Int) : Int := wrap64 (x + y)

/-- Per-lane scalar `long` subtraction. -/
def scalarSub (x y : Int) : Int := wrap64 (x - y)

/-- Per-lane scalar `long` multiplication. -/
def scalarMul (x y : Int) : Int := wrap64 (x * y)

/-- Per-lane scalar `long` division (C truncation toward zero). -/
def scalarDiv (x y : Int) : Int := wrap64 (Int.tdiv x y)

/-- C3: the claim fails on the code.  `sum()` adds all four hardware lanes
regardless of `N`, and `broadcast` writes all four hardware lanes; so for
`N = 1` the state reached by `broadcast(7)` has `sum() = 28`, not the
lane-0-only value `7` the claim requires.  Lanes `≥ N` are observably read. -/
theorem avx2_sum_reads_lanes_beyond_n :
    Register.sum (Register.broadcast 7) = 28 ∧ (28 : Int) ≠ 7 := by
  decide

/-- C7: for every supported lane count `N` and every lane `i < N`, the
elementwise `add`, `subtract`, `multiply`, and `divide` produce in lane `i`
exactly the per-lane scalar `long` computation on the corresponding lane
values (division under the nonzero-divisor hypothesis). -/
theorem avx2_lanewise_ops_match_scalar (N : Nat) (hN1 : 1 ≤ N) (hN4 : N ≤ 4)
    (a b : Register) (i : Nat) (hi : i < N) :
    (Register.add a b).lane i = scalarAdd (a.lane i) (b.lane i) ∧
    (Register.subtract a b).lane i = scalarSub (a.lane i) (b.lane i) ∧
    (Register.multiply N a b).lane i = scalarMul (a.lane i) (b.lane i) ∧
    (b.lane i ≠ 0 →
      (Register.divide N a b).lane i = scalarDiv (a.lane i) (b.lane i)) := by
  interval_cases N <;> interval_cases i <;>
    simp [Register.add, Register.subtract, Register.multiply,
      Register.divide, Register.lane, Register.get, scalarAdd, scalarSub,
      scalarMul, scalarDiv]

/-- C7 witness: the lane-wise fidelity theorem applied at `N = 2`, lane 1. -/
theorem avx2_lanewise_ops_match_scalar_witness :
    (Register.add ⟨1, 2, 3, 4⟩ ⟨10, 20, 30, 40⟩).lane 1 =
      scalarAdd ((⟨1, 2, 3, 4⟩ : Register).lane 1)
        ((⟨10, 20, 30, 40⟩ : Register).lane 1) :=
  (avx2_lanewise_ops_match_scalar 2 (by decide) (by decide)
    ⟨1, 2, 3, 4⟩ ⟨10, 20, 30, 40⟩ 1 (by decide)).1

/-- C9: the indexed accessors are total at the public interface: for any
index outside `[0, 4)`, `get` returns 0 (the switch's fall-through) and
`set` leaves the register completely unchanged (no switch case matches). -/
theorem avx2_get_set_total_outside_range (v : Register) (i : Int)
    (x : Int) (h : i < 0 ∨ 4 ≤ i) :
    Register.get v i = 0 ∧ Register.set v i x = v := by
  have h0 : i ≠ 0 := by omega
  have h1 : i ≠ 1 := by omega
  have h2 : i ≠ 2 := by omega
  have h3 : i ≠ 3 := by omega
  simp [Register.get, Register.set, h0, h1, h2, h3]

/-- C9 witness: the totality theorem applied at index 7. -/
theorem avx2_get_set_total_outside_range_witness :
    Register.get ⟨1, 2, 3, 4⟩ 7 = 0 ∧
      Register.set ⟨1, 2, 3, 4⟩ 7 9 = ⟨1, 2, 3, 4⟩ :=
  avx2_get_set_total_outside_range ⟨1, 2, 3, 4⟩ 7 9 (Or.inr (by decide))

/-- Embeds `RAJA::detail::firstIndex` (algorithm.hpp lines 39-43):
`return (static_cast<size_t>(n) * pid) / p;`.  The product is computed in
64-bit `size_t` (the explicit `% 2^64`), the division is 64-bit unsigned
division, and the quotient converts back to `int` value-preservingly on the
claim's input range (the result is at most `n < 2^31`).  Non-negative
inputs are modelled as `Nat`. -/
def firstIndex (n p pid : Nat) : Nat := n * pid % 2 ^ 64 / p

/-- C10: on the `int` input range, `firstIndex(n, p, pid)` equals
`⌊n·pid/p⌋` exactly — the widened 64-bit product never overflows — and it is
monotonically non-decreasing in `pid` with `firstIndex(n,p,0) = 0` and
`firstIndex(n,p,p) = n`, so consecutive values partition `[0, n)` into `p`
contiguous non-overlapping blocks: every `k < n` lies in exactly the block
of some `q < p`, between `firstIndex(n,p,q)` and `firstIndex(n,p,q+1)`. -/
theorem firstIndex_exact_partition (n p : Nat)
    (hn : n ≤ 2 ^ 31 - 1) (hp : p ≤ 2 ^ 31 - 1) (hppos : 0 < p) :
    (∀ pid, pid ≤ p → firstIndex n p pid = n * pid / p) ∧
    (∀ q r, q ≤ r → r ≤ p → firstIndex n p q ≤ firstIndex n p r) ∧
    firstIndex n p 0 = 0 ∧
    firstIndex n p p = n ∧
    (∀ k, k < n →
      ∃ q, q < p ∧ firstIndex n p q ≤ k ∧ k < firstIndex n p (q + 1)) := by
  have hexact : ∀ pid, pid ≤ p → firstIndex n p pid = n * pid / p := by
    intro pid hpid
    have hlt : n * pid < 2 ^ 64 := by
      calc n * pid ≤ (2 ^ 31 - 1) * (2 ^ 31 - 1) :=
            Nat.mul_le_mul hn (le_trans hpid hp)
        _ < 2 ^ 64 := by norm_num
    rw [firstIndex, Nat.mod_eq_of_lt hlt]
  have hmono : ∀ q r, q ≤ r → r ≤ p → firstIndex n p q ≤ firstIndex n p r := by
    intro q r hqr hrp
    rw [hexact q (le_trans hqr hrp), hexact r hrp]
    exact Nat.div_le_div_right (Nat.mul_le_mul_left n hqr)
  have hzero : firstIndex n p 0 = 0 := by simp [firstIndex]
  have hfull : firstIndex n p p = n := by
    rw [hexact p le_rfl]
    exact Nat.mul_div_cancel n hppos
  refine ⟨hexact, hmono, hzero, hfull, ?_⟩
  intro k hk
  classical
  set P : Nat → Prop := fun q => firstIndex n p q ≤ k with hP
  have hP0 : P 0 := by simp [hP, hzero]
  set q0 := Nat.findGreatest P p with hq0
  have hq0P : P q0 := Nat.findGreatest_spec (Nat.zero_le p) hP0
  have hq0le : q0 ≤ p := Nat.findGreatest_le p
  have hq0lt : q0 < p := by
    rcases Nat.lt_or_ge q0 p with h | h
    · exact h
    · exfalso
      have : q0 = p := le_antisymm hq0le h
      rw [hP, this, hfull] at hq0P
      omega
  have hnext : ¬ P (q0 + 1) :=
    Nat.findGreatest_is_greatest (Nat.lt_succ_self q0) hq0lt
  exact ⟨q0, hq0lt, hq0P, by omega⟩

/-- C10 witness: the partition theorem applied at `n = 10`, `p = 3`,
extracting the endpoint `firstIndex(10, 3, 3) = 10`. -/
theorem firstIndex_exact_partition_witness : firstIndex 10 3 3 = 10 :=
  (firstIndex_exact_partition 10 3 (by norm_num) (by norm_num)
    (by norm_num)).2.2.2.1

/-- Modelled from the spec: the `ReduceSum` accumulator implementation
(`RAJA::ReduceSum` with the cuda reduce policy) is not under `src/` — only
its test `test-reduce-sum.cpp` is.  Per §4.5, during execution each parallel
unit folds its own contributions into a private partial value. -/
def unitPartial (contributions : List Int) : Int :=
  contributions.foldl (· + ·) 0

/-- Modelled from the spec, §4.5: finalization combines the per-unit partial
values into the initial value in some unspecified order. -/
def finalizeReduceSum (init : Int) (partials : List Int) : Int :=
  partials.foldl (· + ·) init

/-- Folding integer addition from `a` accumulates the list sum. -/
lemma foldl_add_eq_add_sum (l : List Int) :
    ∀ a : Int, l.foldl (· + ·) a = a + l.sum := by
  induction l with
  | nil => intro a; simp
  | cons x xs ih =>
    intro a
    rw [List.foldl_cons, ih (a + x), List.sum_cons]
    ring

/-- C8: for any multiset of integer contributions split arbitrarily across
parallel units, and any order in which the per-unit partial values are
combined, the finalized integer `ReduceSum` equals its initial value plus
the exact sum of all contributions; in particular `M` unit contributions on
initial value 0 yield exactly `M`. -/
theorem reduce_sum_order_independent (init : Int) (units : List (List Int))
    (order : List Int) (M : Nat)
    (hperm : order.Perm (units.map unitPartial)) :
    finalizeReduceSum init order = init + units.flatten.sum ∧
    (init = 0 → units.flatten = List.replicate M (1 : Int) →
      finalizeReduceSum init order = M) := by
  have hpartial : ∀ u : List Int, unitPartial u = u.sum := by
    intro u
    rw [unitPartial, foldl_add_eq_add_sum]
    ring
  have hmain : finalizeReduceSum init order = init + units.flatten.sum := by
    rw [finalizeReduceSum, foldl_add_eq_add_sum, hperm.sum_eq]
    congr 1
    rw [List.sum_flatten]
    congr 1
    exact (List.map_congr_left fun u _ => hpartial u)
  refine ⟨hmain, fun hinit hrep => ?_⟩
  rw [hmain, hinit, hrep, List.sum_replicate]
  simp

/-- C8 witness: six unit contributions split as `[[1,1],[1],[1,1,1]]` across
three units, partials `[2,1,3]` combined in the order `[3,1,2]`. -/
theorem reduce_sum_order_independent_witness :
    finalizeReduceSum 0 [3, 1, 2] =
      0 + ([[1, 1], [1], [1, 1, 1]] : List (List Int)).flatten.sum :=
  (reduce_sum_order_independent 0 [[1, 1], [1], [1, 1, 1]] [3, 1, 2] 6
    (by decide)).1

end RAJA
